import Mathlib

/-!
A verification development for the pixi-anime timeline engine.

Shallow embedding of the keyframe-driven timeline engine:

* `Movie.interpolate` (lazy, on-demand resolution of an element's property
  state at a target frame) and `Movie.getElementState`, from `src/model`
  (lazy variant, `src/unnamed/part_000`);
* `Movie._precalculateFrames` (eager dense-table precomputation) and the
  exact-frame dense lookup used by `Movie.updateFrame`, from
  `src/src/model/index.ts`;
* `MovieRenderer.update` / `MovieRenderer.pause` (the playback clock), from
  `src/src/render/index.ts`;
* the audio-window branch of `MovieRenderer.renderFrame`, from
  `src/unnamed/part_000`.

Modelling conventions:

* JS numbers are modelled as `ℚ` (exact rational arithmetic); the claims'
  "within floating-point tolerance" becomes exact equality in `ℚ`.
* A JS keyframe object `{ frame: n, x: ..., ... }` is modelled as a `Frame`
  with the mandatory `frame` field split out and the remaining keys held in
  an association list `props`; because the `frame` key lives in the separate
  field, the source's explicit skipping of the `'frame'` key inside the
  property-merge loops is implicit in the model.
* Non-numeric JS values (strings, booleans, ...) are modelled by the single
  constructor `Value.str`; `typeof v === 'number'` becomes matching on
  `Value.num`.
* `Array.prototype.sort` with comparator `(a, b) => a.frame - b.frame` is a
  stable ascending sort; any two stable sorts agree extensionally, and it is
  modelled by `List.insertionSort` (which is stable).
* The JS `%` operator on a zero divisor yields `NaN`; the clock position is
  therefore an `Option ℚ` where `none` models `NaN`.
-/

/-- A property value on a keyframe: either a JS number (`num`) or any
non-numeric JS value (`str`), which the engine never interpolates. -/
inductive Value where
  | num (q : ℚ)
  | str (s : String)
deriving DecidableEq, Repr

/-- A keyframe: the mandatory `frame` index plus the open-ended mapping of
property name to value (the object's remaining keys, in insertion order). -/
structure Frame where
  frame : ℚ
  props : List (String × Value)
deriving DecidableEq, Repr

/-- Reading `obj[key]` on a keyframe object: first binding wins (a JS object
has unique keys, so on well-formed data there is exactly one). -/
def lookupProp : List (String × Value) → String → Option Value
  | [], _ => none
  | (k', v) :: rest, k => if k' = k then some v else lookupProp rest k

/-- `fr[key]` for a non-`frame` property key. -/
def Frame.getProp (fr : Frame) (k : String) : Option Value :=
  lookupProp fr.props k

/-- Writing `obj[key] = v` on a JS object: replace the binding if the key is
present, otherwise append it. -/
def setProp : List (String × Value) → String → Value → List (String × Value)
  | [], k, v => [(k, v)]
  | (k', v') :: rest, k, v =>
      if k' = k then (k, v) :: rest else (k', v') :: setProp rest k v

/-- The comparator `(a, b) => a.frame - b.frame`: ascending order on the
`frame` field. -/
def frameLE (a b : Frame) : Prop := a.frame ≤ b.frame

instance : DecidableRel frameLE := fun a b =>
  inferInstanceAs (Decidable (a.frame ≤ b.frame))

instance : IsTotal Frame frameLE := ⟨fun a b => le_total a.frame b.frame⟩

instance : IsTrans Frame frameLE := ⟨fun _ _ _ h h' => le_trans h h'⟩

/-- `[...frames].sort((a, b) => a.frame - b.frame)`: a stable ascending sort
by `frame` (modelled by the stable `insertionSort`). -/
def sortFrames (frames : List Frame) : List Frame :=
  List.insertionSort frameLE frames

/-- Reading `sortedFrames[i]` (always in bounds in the source; the default
is irrelevant). -/
def nthFrame (l : List Frame) (i : ℕ) : Frame :=
  l.getD i ⟨0, []⟩

/-- The scan shared verbatim by the lazy `interpolate` and by
`_precalculateFrames`:

    for (let i = 0; i < sorted.length; i++) {
      if (sorted[i].frame <= targetFrame) { prev = sorted[i]; }
      else { next = sorted[i]; break; }
    }

`prev` and `next` are tracked as indices into the sorted array (JS compares
them with `===`, i.e. object identity, which positions model). -/
def findSeg (t : ℚ) : List Frame → ℕ → ℕ × ℕ → ℕ × ℕ
  | [], _, pn => pn
  | fr :: rest, i, (p, n) =>
      if fr.frame ≤ t then findSeg t rest (i + 1) (i, n) else (p, i)

/-- One key of the lazy merge loop: both values numeric → linear
interpolation; otherwise hold `prev`'s value when defined, else omit the
key.  (`result[key]` is set to exactly this, or left absent on `none`.) -/
def lazyMerge (prev next : Frame) (ratio : ℚ) (k : String) : Option Value :=
  match prev.getProp k, next.getProp k with
  | some (Value.num v1), some (Value.num v2) =>
      some (Value.num (v1 + (v2 - v1) * ratio))
  | some v1, _ => some v1
  | none, _ => none

/-- `new Set([...Object.keys(prevFrame), ...Object.keys(nextFrame)])`: the
union of the two key sets (iteration order of the set is immaterial to every
lookup, so `dedup` is used). -/
def unionKeys (prev next : Frame) : List String :=
  (prev.props.map Prod.fst ++ next.props.map Prod.fst).dedup

/-- `Movie.interpolate(frames, targetFrame)` — the lazy resolution. -/
def interpolate (frames : List Frame) (targetFrame : ℚ) : Frame :=
  let sorted := sortFrames frames
  if sorted.isEmpty then { frame := targetFrame, props := [] }
  else
    let pn := findSeg targetFrame sorted 0 (0, sorted.length - 1)
    let prevFrame := nthFrame sorted pn.1
    let nextFrame := nthFrame sorted pn.2
    if pn.1 = pn.2 then { prevFrame with frame := targetFrame }
    else if targetFrame < prevFrame.frame then
      { prevFrame with frame := targetFrame }
    else if nextFrame.frame < targetFrame then
      { nextFrame with frame := targetFrame }
    else
      let ratio :=
        (targetFrame - prevFrame.frame) / (nextFrame.frame - prevFrame.frame)
      { frame := targetFrame,
        props := (unionKeys prevFrame nextFrame).filterMap fun k =>
          (lazyMerge prevFrame nextFrame ratio k).map fun v => (k, v) }

/-- The element kind discriminant (`'image' | 'text' | 'audio'`). -/
inductive ElementType where
  | image
  | text
  | audio
deriving DecidableEq, Repr

/-- A movie element: identity, kind and keyframe list (the kind-specific
payloads — image source, text content, audio source — play no role in the
timeline engine and are omitted). -/
structure Element where
  id : String
  type : ElementType
  frames : List Frame
deriving DecidableEq, Repr

/-- `Movie.getElementState(elementId, frame)`: find the element by id
(first match) and lazily interpolate; `null` for an unknown id. -/
def getElementState (elements : List Element) (elementId : String)
    (frame : ℚ) : Option Frame :=
  (elements.find? fun e => e.id = elementId).map fun e =>
    interpolate e.frames frame

/-- The `propsToInterpolate` set of `_precalculateFrames`: every key that
carries a numeric value on some keyframe (`typeof kf[key] === 'number'`). -/
def propsToInterpolate (keyframes : List Frame) : List String :=
  (keyframes.flatMap fun kf =>
    (kf.props.map Prod.fst).filter fun k =>
      match kf.getProp k with
      | some (Value.num _) => true
      | _ => false).dedup

/-- The body of the `for (let f = 0; f <= this.duration; f++)` loop of
`_precalculateFrames`: the dense-table entry for one frame `f`.
`keyframes` is the sorted copy, `props` the precollected
`propsToInterpolate`. -/
def precalcEntry (keyframes : List Frame) (props : List String) (f : ℚ) :
    Frame :=
  match keyframes.find? (fun k => decide (k.frame = f)) with
  | some exact => exact
  | none =>
    let pn := findSeg f keyframes 0 (0, keyframes.length - 1)
    let prev := nthFrame keyframes pn.1
    let next := nthFrame keyframes pn.2
    if f < prev.frame then { prev with frame := f }
    else if next.frame < f then { next with frame := f }
    else if pn.1 = pn.2 then { prev with frame := f }
    else
      let ratio := (f - prev.frame) / (next.frame - prev.frame)
      { frame := f,
        props := props.foldl (fun acc k =>
          match prev.getProp k, next.getProp k with
          | some (Value.num v1), some (Value.num v2) =>
              setProp acc k (Value.num (v1 + (v2 - v1) * ratio))
          | _, _ => acc) ({ prev with frame := f }).props }

/-- The per-element body of `_precalculateFrames`: sort, bail out on an
empty keyframe list (`continue` leaves the element untouched), otherwise
replace the list by the dense table over frames `0 .. duration`.  The
movie's `duration` is a non-negative integer frame index (`ℕ`). -/
def precalcElement (duration : ℕ) (frames : List Frame) : List Frame :=
  let keyframes := sortFrames frames
  if keyframes.isEmpty then frames
  else
    (List.range (duration + 1)).map fun f : ℕ =>
      precalcEntry keyframes (propsToInterpolate keyframes) (f : ℚ)

/-- `Movie._precalculateFrames()`: audio elements are skipped
(`continue`), every other element gets the dense-table replacement. -/
def precalculateFrames (duration : ℕ) (elements : List Element) :
    List Element :=
  elements.map fun e =>
    if e.type = ElementType.audio then e
    else { e with frames := precalcElement duration e.frames }

/-- The per-element step of `precalculateFrames` (the `map` body). -/
def precalcE (duration : ℕ) (e : Element) : Element :=
  if e.type = ElementType.audio then e
  else { e with frames := precalcElement duration e.frames }

/-- The exact-frame dense-table lookup of `Movie.updateFrame`:
`element.frames.find(f => f.frame === frame)`. -/
def denseLookup (frames : List Frame) (frame : ℚ) : Option Frame :=
  frames.find? fun fr => decide (fr.frame = frame)

/-- Two resolved frame states are observationally equal: same `frame` field
and the same value for every property key. -/
def FrameEquiv (a b : Frame) : Prop :=
  a.frame = b.frame ∧ ∀ k, a.getProp k = b.getProp k

/-! ## Playback clock (`MovieRenderer.update` / `pause`, `src/src/render`) -/

/-- The movie parameters the clock reads. -/
structure MovieParams where
  duration : ℚ
  loop : Bool
  fps : ℚ
deriving DecidableEq, Repr

/-- Renderer playback state: fractional frame position plus the playing
flag.  `none` models a `NaN` position (JS `x % 0` is `NaN`). -/
structure ClockState where
  currentFrame : Option ℚ
  isPlaying : Bool
deriving DecidableEq, Repr

/-- Truncating rational division, matching how JS `%` rounds the quotient
toward zero. -/
def ratTrunc (q : ℚ) : ℤ :=
  if 0 ≤ q then ⌊q⌋ else ⌈q⌉

/-- The JS remainder `a % b`: `a - b * trunc(a / b)`, and `NaN` (`none`)
when `b = 0`. -/
def jsMod (a b : ℚ) : Option ℚ :=
  if b = 0 then none else some (a - b * (ratTrunc (a / b) : ℚ))

/-- `MovieRenderer.update(time)`: advance the position by
`(fps / 60) * deltaTime`; past the duration either wrap with `%` (loop) or
clamp to the duration and `pause()` (which clears `isPlaying`).  A `NaN`
position stays `NaN` (`NaN > duration` is false, so neither branch fires). -/
def update (m : MovieParams) (s : ClockState) (deltaTime : ℚ) : ClockState :=
  match s.currentFrame with
  | none => s
  | some cf =>
    let cf' := cf + m.fps / 60 * deltaTime
    if m.duration < cf' then
      if m.loop then
        { currentFrame := jsMod cf' m.duration, isPlaying := s.isPlaying }
      else
        { currentFrame := some m.duration, isPlaying := false }
    else
      { currentFrame := some cf', isPlaying := s.isPlaying }

/-! ## Audio window scheduling (`MovieRenderer.renderFrame`, audio branch) -/

/-- The observable state of an `HTMLAudioElement`: its `paused` flag and its
`currentTime` offset in seconds. -/
structure AudioState where
  paused : Bool
  currentTime : ℚ
deriving DecidableEq, Repr

/-- The audio branch of `MovieRenderer.renderFrame(frame)` for one audio
element, with `startFrame`/`endFrame` already defaulted
(`?? 0` / `?? duration`): inside the window `[startFrame, endFrame)` while
playing, start paused media at offset `(frame - startFrame) / fps`, or
re-sync running media only when the drift exceeds `0.5` seconds; outside the
window (or when not playing), stop running media and reset its offset. -/
def audioTick (fps startFrame endFrame : ℚ) (isPlaying : Bool) (frame : ℚ)
    (a : AudioState) : AudioState :=
  if startFrame ≤ frame ∧ frame < endFrame then
    if isPlaying && a.paused then
      { paused := false, currentTime := (frame - startFrame) / fps }
    else if isPlaying && !a.paused then
      let expected := (frame - startFrame) / fps
      if 1 / 2 < |a.currentTime - expected| then
        { a with currentTime := expected }
      else a
    else a
  else
    if !a.paused then { paused := true, currentTime := 0 } else a

/-! ## Basic lemmas about property association lists -/

theorem lookupProp_eq_none_iff (l : List (String × Value)) (k : String) :
    lookupProp l k = none ↔ k ∉ l.map Prod.fst := by
  induction l with
  | nil => simp [lookupProp]
  | cons p rest ih =>
    obtain ⟨k', v⟩ := p
    by_cases h : k' = k <;> simp [lookupProp, h, ih, Ne.symm]

theorem lookupProp_ne_none_iff (l : List (String × Value)) (k : String) :
    lookupProp l k ≠ none ↔ k ∈ l.map Prod.fst := by
  rw [ne_eq, lookupProp_eq_none_iff, not_not]

theorem lookupProp_setProp_self (l : List (String × Value)) (k : String)
    (v : Value) : lookupProp (setProp l k v) k = some v := by
  induction l with
  | nil => simp [setProp, lookupProp]
  | cons p rest ih =>
    obtain ⟨k', v'⟩ := p
    by_cases h : k' = k <;> simp [setProp, lookupProp, h, ih]

theorem lookupProp_setProp_ne (l : List (String × Value)) (k k' : String)
    (v : Value) (h : k' ≠ k) :
    lookupProp (setProp l k v) k' = lookupProp l k' := by
  induction l with
  | nil => simp [setProp, lookupProp, Ne.symm h]
  | cons p rest ih =>
    obtain ⟨k0, v0⟩ := p
    by_cases h0 : k0 = k
    · subst h0
      simp [setProp, lookupProp, Ne.symm h]
    · by_cases h1 : k0 = k' <;> simp [setProp, lookupProp, h0, h1, h, ih]

theorem lookupProp_filterMap (keys : List String) (g : String → Option Value)
    (k : String) :
    lookupProp (keys.filterMap fun k' => (g k').map fun v => (k', v)) k
      = if k ∈ keys then g k else none := by
  induction keys with
  | nil => simp [lookupProp]
  | cons k0 rest ih =>
    cases hg : g k0 with
    | none =>
      by_cases hk : k = k0
      · subst hk
        rcases hmem : decide (k ∈ rest) with _ | _
        · simp_all [List.filterMap_cons, hg, ih]
        · simp_all [List.filterMap_cons, hg, ih]
      · simp [List.filterMap_cons, hg, ih, hk]
    | some v =>
      by_cases hk : k = k0
      · subst hk
        simp [List.filterMap_cons, hg, lookupProp]
      · simp [List.filterMap_cons, hg, lookupProp, Ne.symm hk, hk, ih]

/-- The effect on one key of the eager interpolation loop
(`propsToInterpolate.forEach(...)` over the copy of `prev`): a key is
overwritten with the interpolated value exactly when it is in the iterated
key set and both bracketing values are numeric. -/
theorem lookupProp_precalcFold (prev next : Frame) (ratio : ℚ) :
    ∀ (P : List String) (base : List (String × Value)) (k : String),
    lookupProp (P.foldl (fun acc k' =>
      match prev.getProp k', next.getProp k' with
      | some (Value.num v1), some (Value.num v2) =>
          setProp acc k' (Value.num (v1 + (v2 - v1) * ratio))
      | _, _ => acc) base) k
    = match prev.getProp k, next.getProp k with
      | some (Value.num v1), some (Value.num v2) =>
          if k ∈ P then some (Value.num (v1 + (v2 - v1) * ratio))
          else lookupProp base k
      | _, _ => lookupProp base k := by
  intro P
  induction P with
  | nil =>
    intro base k
    simp only [List.foldl_nil, List.not_mem_nil, if_false]
    split <;> rfl
  | cons k0 rest ih =>
    intro base k
    simp only [List.foldl_cons]
    rw [ih]
    by_cases hk : k = k0
    · subst hk
      rcases hp : prev.getProp k with _ | v1
      · simp
      · rcases v1 with q1 | s1
        · rcases hn : next.getProp k with _ | v2
          · simp [hp, hn]
          · rcases v2 with q2 | s2
            · simp [hp, hn, lookupProp_setProp_self]
            · simp [hp, hn]
        · simp [hp]
    · have hbase :
          lookupProp
            (match prev.getProp k0, next.getProp k0 with
             | some (Value.num v1), some (Value.num v2) =>
                 setProp base k0 (Value.num (v1 + (v2 - v1) * ratio))
             | _, _ => base) k = lookupProp base k := by
        split
        · exact lookupProp_setProp_ne _ _ _ _ hk
        · rfl
      rw [hbase]
      have hmem : (k ∈ k0 :: rest) = (k ∈ rest) := by simp [hk]
      split <;> simp [hmem]

/-- At ratio `0` the lazy merge returns `prev`'s value for every key. -/
theorem lazyMerge_zero (prev next : Frame) (k : String) :
    lazyMerge prev next 0 k = prev.getProp k := by
  unfold lazyMerge
  rcases hp : prev.getProp k with _ | v1
  · rfl
  · rcases v1 with q1 | s1
    · rcases hn : next.getProp k with _ | v2
      · rfl
      · rcases v2 with q2 | s2 <;> simp
    · rfl

theorem mem_unionKeys (prev next : Frame) (k : String) :
    k ∈ unionKeys prev next ↔
      k ∈ prev.props.map Prod.fst ∨ k ∈ next.props.map Prod.fst := by
  simp [unionKeys, List.mem_dedup]

/-- A key outside the union of the two key sets is absent from `prev`. -/
theorem getProp_eq_none_of_not_mem_union (prev next : Frame) (k : String)
    (h : k ∉ unionKeys prev next) : prev.getProp k = none := by
  rw [Frame.getProp, lookupProp_eq_none_iff]
  intro hmem
  exact h ((mem_unionKeys prev next k).mpr (Or.inl hmem))

/-- The props of the lazy interpolation branch, key by key. -/
theorem getProp_lazyBranch (prev next : Frame) (ratio : ℚ) (t : ℚ)
    (k : String) :
    (Frame.mk t ((unionKeys prev next).filterMap fun k' =>
      (lazyMerge prev next ratio k').map fun v => (k', v))).getProp k
    = if k ∈ unionKeys prev next then lazyMerge prev next ratio k
      else none := by
  rw [Frame.getProp]
  exact lookupProp_filterMap _ _ _

theorem mem_propsToInterpolate (keyframes : List Frame) (k : String) :
    k ∈ propsToInterpolate keyframes ↔
      ∃ kf ∈ keyframes, ∃ q : ℚ, kf.getProp k = some (Value.num q) := by
  unfold propsToInterpolate
  rw [List.mem_dedup, List.mem_flatMap]
  constructor
  · rintro ⟨kf, hkf, hmem⟩
    rw [List.mem_filter] at hmem
    refine ⟨kf, hkf, ?_⟩
    rcases hp : kf.getProp k with _ | v
    · rw [hp] at hmem
      exact absurd hmem.2 (by simp)
    · rcases v with q | s
      · exact ⟨q, rfl⟩
      · rw [hp] at hmem
        exact absurd hmem.2 (by simp)
  · rintro ⟨kf, hkf, q, hq⟩
    refine ⟨kf, hkf, List.mem_filter.mpr ⟨?_, by simp [hq]⟩⟩
    rw [← lookupProp_ne_none_iff]
    rw [Frame.getProp] at hq
    simp [hq]

/-! ## The scan: `findSeg` against the takeWhile/dropWhile decomposition -/

/-- When every keyframe is at or before the target, the scan never breaks:
`prev` ends on the last index, `next` keeps its initial value. -/
theorem findSeg_of_all_le (t : ℚ) (l : List Frame)
    (h : ∀ fr ∈ l, fr.frame ≤ t) :
    ∀ i p n, l ≠ [] → findSeg t l i (p, n) = (i + l.length - 1, n) := by
  induction l with
  | nil => intro i p n hne; exact absurd rfl hne
  | cons fr rest ih =>
    intro i p n _
    rw [findSeg, if_pos (h fr (List.mem_cons_self _ _))]
    cases rest with
    | nil => simp [findSeg]
    | cons fr2 rest2 =>
      rw [ih (fun x hx => h x (List.mem_cons_of_mem _ hx)) (i + 1) i n
        (by simp)]
      simp only [List.length_cons]
      congr 1
      omega

/-- When the scan hits a first element past the target after a nonempty
prefix at or before it, `prev` is the last prefix index and `next` the
first index past it. -/
theorem findSeg_of_split (t : ℚ) (A : List Frame)
    (hA : ∀ fr ∈ A, fr.frame ≤ t) (b : Frame) (bs : List Frame)
    (hb : ¬ b.frame ≤ t) :
    ∀ i p n, A ≠ [] →
      findSeg t (A ++ b :: bs) i (p, n) = (i + A.length - 1, i + A.length) := by
  induction A with
  | nil => intro i p n hne; exact absurd rfl hne
  | cons fr rest ih =>
    intro i p n _
    rw [List.cons_append, findSeg, if_pos (hA fr (List.mem_cons_self _ _))]
    cases rest with
    | nil => simp [findSeg, hb]
    | cons fr2 rest2 =>
      rw [ih (fun x hx => hA x (List.mem_cons_of_mem _ hx)) (i + 1) i n
        (by simp)]
      simp only [List.length_cons]
      rw [Prod.mk.injEq]
      exact ⟨by omega, by omega⟩

/-- When already the first element is past the target, the scan breaks
immediately. -/
theorem findSeg_head_gt (t : ℚ) (b : Frame) (bs : List Frame)
    (hb : ¬ b.frame ≤ t) (i p n : ℕ) :
    findSeg t (b :: bs) i (p, n) = (p, i) := by
  rw [findSeg, if_neg hb]

/-! ## Sortedness facts about `sortFrames` -/

theorem sortFrames_pairwise (frames : List Frame) :
    (sortFrames frames).Pairwise frameLE :=
  List.sorted_insertionSort frameLE frames

theorem sortFrames_perm (frames : List Frame) :
    List.Perm (sortFrames frames) frames :=
  List.perm_insertionSort frameLE frames

theorem mem_sortFrames (fr : Frame) (frames : List Frame) :
    fr ∈ sortFrames frames ↔ fr ∈ frames :=
  (sortFrames_perm frames).mem_iff

theorem sortFrames_eq_nil_iff (frames : List Frame) :
    sortFrames frames = [] ↔ frames = [] := by
  constructor
  · intro h
    have := (sortFrames_perm frames).length_eq
    rw [h] at this
    exact List.length_eq_zero.mp this.symm
  · intro h
    subst h
    rfl

/-- In a sorted list, every element's frame is at most the last one's. -/
theorem pairwise_le_getLast (l : List Frame) (hl : l.Pairwise frameLE) :
    ∀ (h : l ≠ []) (x : Frame), x ∈ l → x.frame ≤ (l.getLast h).frame := by
  induction l with
  | nil => intro h; exact absurd rfl h
  | cons a rest ih =>
    intro h x hx
    cases rest with
    | nil =>
      rw [List.mem_singleton] at hx
      subst hx
      exact le_refl _
    | cons b rest2 =>
      rw [List.getLast_cons (by simp)]
      rcases List.mem_cons.mp hx with hxa | hxrest
      · subst hxa
        have hab : frameLE x b := (List.pairwise_cons.mp hl).1 b
          (List.mem_cons_self _ _)
        have hb : (b :: rest2).getLast (by simp) ∈ b :: rest2 :=
          List.getLast_mem _
        have := ih (List.pairwise_cons.mp hl).2 (by simp) b
          (List.mem_cons_self _ _)
        exact le_trans hab this
      · exact ih (List.pairwise_cons.mp hl).2 (by simp) x hxrest

/-- Every element dropped by the `frame ≤ t` takeWhile of a sorted list
has its frame strictly past `t`. -/
theorem mem_dropWhile_gt (t : ℚ) (sorted : List Frame)
    (hs : sorted.Pairwise frameLE) :
    ∀ x ∈ sorted.dropWhile (fun fr => decide (fr.frame ≤ t)), t < x.frame := by
  intro x hx
  set p : Frame → Bool := fun fr => decide (fr.frame ≤ t) with hp
  have hsplit : sorted.takeWhile p ++ sorted.dropWhile p = sorted :=
    List.takeWhile_append_dropWhile p sorted
  have hpw : (sorted.takeWhile p ++ sorted.dropWhile p).Pairwise frameLE := by
    rw [hsplit]; exact hs
  have hB : (sorted.dropWhile p).Pairwise frameLE :=
    (List.pairwise_append.mp hpw).2.1
  cases hBc : sorted.dropWhile p with
  | nil => rw [hBc] at hx; exact absurd hx (List.not_mem_nil x)
  | cons b bs =>
    have hhead : p b = false := by
      have := List.head?_dropWhile_not p sorted
      rw [hBc] at this
      simpa using this
    have hbt : t < b.frame := by
      have : ¬ b.frame ≤ t := by simpa [hp] using hhead
      exact lt_of_not_le this
    rw [hBc] at hx
    rcases List.mem_cons.mp hx with hxb | hxbs
    · subst hxb; exact hbt
    · rw [hBc] at hB
      have hle : frameLE b x := (List.pairwise_cons.mp hB).1 x hxbs
      exact lt_of_lt_of_le hbt hle

/-! ## Indexing helpers -/

theorem nthFrame_append_left (A B : List Frame) (i : ℕ) (h : i < A.length) :
    nthFrame (A ++ B) i = nthFrame A i := by
  simp [nthFrame, List.getD_eq_getElem?_getD, List.getElem?_append, h]

theorem nthFrame_append_mid (A : List Frame) (b : Frame) (bs : List Frame) :
    nthFrame (A ++ b :: bs) A.length = b := by
  rw [nthFrame, List.getD_eq_getElem?_getD, List.getElem?_append]
  simp

theorem nthFrame_getLast (l : List Frame) (h : l ≠ []) :
    nthFrame l (l.length - 1) = l.getLast h := by
  have hb : l.length - 1 < l.length := by
    have : 0 < l.length := List.length_pos.mpr h
    omega
  rw [nthFrame, List.getD_eq_getElem?_getD, List.getElem?_eq_getElem hb]
  rw [List.getLast_eq_getElem]
  rfl

theorem getLastD_eq_getLast (l : List Frame) (h : l ≠ []) (d : Frame) :
    l.getLastD d = l.getLast h := by
  rw [List.getLastD_eq_getLast?, List.getLast?_eq_getLast l h]
  rfl

/-! ## The scan target: the last sorted keyframe at or before `t` -/

/-- The keyframe the scan leaves in `prev`: the last element of the sorted
list whose frame is at or before `t` (meaningful once one exists). -/
def lastAtOrBefore (frames : List Frame) (t : ℚ) : Frame :=
  ((sortFrames frames).takeWhile fun fr => decide (fr.frame ≤ t)).getLastD
    ⟨0, []⟩

theorem mem_takeWhile_of_le (frames : List Frame) (t : ℚ) (kf : Frame)
    (hmem : kf ∈ sortFrames frames) (hle : kf.frame ≤ t) :
    kf ∈ (sortFrames frames).takeWhile fun fr => decide (fr.frame ≤ t) := by
  have hsplit := List.takeWhile_append_dropWhile
    (fun fr => decide (fr.frame ≤ t)) (sortFrames frames)
  rw [← hsplit] at hmem
  rcases List.mem_append.mp hmem with hA | hB
  · exact hA
  · exact absurd hle (not_le.mpr
      (mem_dropWhile_gt t (sortFrames frames) (sortFrames_pairwise frames)
        kf hB))

theorem takeWhile_ne_nil_of_le (frames : List Frame) (t : ℚ) (kf : Frame)
    (hmem : kf ∈ frames) (hle : kf.frame ≤ t) :
    ((sortFrames frames).takeWhile fun fr => decide (fr.frame ≤ t)) ≠ [] :=
  List.ne_nil_of_mem
    (mem_takeWhile_of_le frames t kf ((mem_sortFrames kf frames).mpr hmem) hle)

/-- When some keyframe sits exactly at `t`, the scan's `prev` keyframe is a
keyframe of the element and has frame exactly `t`. -/
theorem lastAtOrBefore_spec (frames : List Frame) (t : ℚ) (kf : Frame)
    (hmem : kf ∈ frames) (hkf : kf.frame = t) :
    lastAtOrBefore frames t ∈ frames ∧ (lastAtOrBefore frames t).frame = t := by
  have hle : kf.frame ≤ t := le_of_eq hkf
  have hA : ((sortFrames frames).takeWhile
      fun fr => decide (fr.frame ≤ t)) ≠ [] :=
    takeWhile_ne_nil_of_le frames t kf hmem hle
  set A := (sortFrames frames).takeWhile fun fr => decide (fr.frame ≤ t)
    with hAdef
  have hlast : lastAtOrBefore frames t = A.getLast hA :=
    getLastD_eq_getLast A hA _
  have hlastA : A.getLast hA ∈ A := List.getLast_mem hA
  have hlast_sorted : A.getLast hA ∈ sortFrames frames :=
    (List.takeWhile_sublist _).mem hlastA
  have hpwA : A.Pairwise frameLE := by
    have hsplit := List.takeWhile_append_dropWhile
      (fun fr => decide (fr.frame ≤ t)) (sortFrames frames)
    have hpw : (A ++ (sortFrames frames).dropWhile
        (fun fr => decide (fr.frame ≤ t))).Pairwise frameLE := by
      rw [hAdef, hsplit]
      exact sortFrames_pairwise frames
    exact (List.pairwise_append.mp hpw).1
  constructor
  · rw [hlast]
    exact (mem_sortFrames _ frames).mp hlast_sorted
  · rw [hlast]
    have h1 : (A.getLast hA).frame ≤ t := by
      have := List.mem_takeWhile_imp hlastA
      simpa using this
    have hkfA : kf ∈ A :=
      mem_takeWhile_of_le frames t kf ((mem_sortFrames kf frames).mpr hmem) hle
    have h2 : kf.frame ≤ (A.getLast hA).frame :=
      pairwise_le_getLast A hpwA hA kf hkfA
    rw [hkf] at h2
    exact le_antisymm h1 h2

theorem interpolate_before_first (frames : List Frame) (t : ℚ)
    (hlt : t < (nthFrame (sortFrames frames) 0).frame)
    (hne : frames ≠ []) :
    interpolate frames t = { nthFrame (sortFrames frames) 0 with frame := t } := by
  have hs : sortFrames frames ≠ [] := by
    rw [ne_eq, sortFrames_eq_nil_iff]
    exact hne
  obtain ⟨b, bs, hbs⟩ := List.exists_cons_of_ne_nil hs
  have hble : ¬ b.frame ≤ t := by
    rw [hbs] at hlt
    exact not_le.mpr (by simpa [nthFrame] using hlt)
  have hseg : findSeg t (sortFrames frames) 0
      (0, (sortFrames frames).length - 1) = (0, 0) := by
    rw [hbs]
    exact findSeg_head_gt t b bs hble 0 0 _
  rw [interpolate]
  simp only [hseg, List.isEmpty_iff, hs, if_false, if_pos rfl, if_true]

theorem interpolate_after_last (frames : List Frame) (t : ℚ)
    (hgt : (nthFrame (sortFrames frames)
      ((sortFrames frames).length - 1)).frame < t)
    (hne : frames ≠ []) :
    interpolate frames t
      = { nthFrame (sortFrames frames) ((sortFrames frames).length - 1) with
          frame := t } := by
  have hs : sortFrames frames ≠ [] := by
    rw [ne_eq, sortFrames_eq_nil_iff]
    exact hne
  have hlast : nthFrame (sortFrames frames) ((sortFrames frames).length - 1)
      = (sortFrames frames).getLast hs := nthFrame_getLast _ hs
  have hall : ∀ fr ∈ sortFrames frames, fr.frame ≤ t := by
    intro fr hfr
    refine le_trans
      (pairwise_le_getLast _ (sortFrames_pairwise frames) hs fr hfr) ?_
    rw [hlast] at hgt
    exact le_of_lt hgt
  have hseg : findSeg t (sortFrames frames) 0
      (0, (sortFrames frames).length - 1)
      = ((sortFrames frames).length - 1, (sortFrames frames).length - 1) := by
    rw [findSeg_of_all_le t _ hall 0 0 _ hs]
    simp
  rw [interpolate]
  simp only [hseg, List.isEmpty_iff, hs, if_false, if_pos rfl, if_true]

theorem interpolate_of_exact (frames : List Frame) (t : ℚ) (kf : Frame)
    (hmem : kf ∈ frames) (hkf : kf.frame = t) :
    FrameEquiv (interpolate frames t)
      ⟨t, (lastAtOrBefore frames t).props⟩ := by
  have hne : frames ≠ [] := List.ne_nil_of_mem hmem
  have hs : sortFrames frames ≠ [] := by
    rw [ne_eq, sortFrames_eq_nil_iff]
    exact hne
  set p : Frame → Bool := fun fr => decide (fr.frame ≤ t) with hpdef
  set A := (sortFrames frames).takeWhile p with hAdef
  set B := (sortFrames frames).dropWhile p with hBdef
  have hsplit : A ++ B = sortFrames frames :=
    List.takeWhile_append_dropWhile p (sortFrames frames)
  have hA : A ≠ [] := takeWhile_ne_nil_of_le frames t kf hmem (le_of_eq hkf)
  have hlast : lastAtOrBefore frames t = A.getLast hA :=
    getLastD_eq_getLast A hA _
  have hAmem : ∀ fr ∈ A, fr.frame ≤ t := by
    intro fr hfr
    have := List.mem_takeWhile_imp hfr
    simpa [hpdef] using this
  have hprev_frame : (A.getLast hA).frame = t := by
    have := (lastAtOrBefore_spec frames t kf hmem hkf).2
    rwa [hlast] at this
  cases hBc : B with
  | nil =>
    have hAall : A = sortFrames frames := by
      rw [← hsplit, hBc, List.append_nil]
    have hall : ∀ fr ∈ sortFrames frames, fr.frame ≤ t := by
      rw [← hAall]; exact hAmem
    have hseg : findSeg t (sortFrames frames) 0
        (0, (sortFrames frames).length - 1)
        = ((sortFrames frames).length - 1,
           (sortFrames frames).length - 1) := by
      rw [findSeg_of_all_le t _ hall 0 0 _ hs]
      simp
    have hnth : nthFrame (sortFrames frames) ((sortFrames frames).length - 1)
        = A.getLast hA := by
      rw [nthFrame_getLast _ hs]
      congr 1
      · exact hAall.symm
    rw [interpolate]
    simp only [hseg, List.isEmpty_iff, hs, if_false, if_pos rfl, if_true]
    rw [hnth, hlast]
    exact ⟨rfl, fun k => rfl⟩
  | cons b bs =>
    have hble : ¬ b.frame ≤ t := by
      have := List.head?_dropWhile_not p (sortFrames frames)
      rw [← hBdef, hBc] at this
      simpa [hpdef] using this
    have hApos : 0 < A.length := List.length_pos.mpr hA
    have hseg : findSeg t (sortFrames frames) 0
        (0, (sortFrames frames).length - 1)
        = (A.length - 1, A.length) := by
      conv_lhs => rw [← hsplit, hBc]
      rw [findSeg_of_split t A hAmem b bs hble 0 0 _ hA]
      simp
    have hprev : nthFrame (sortFrames frames) (A.length - 1)
        = A.getLast hA := by
      conv_lhs => rw [← hsplit]
      rw [nthFrame_append_left A B (A.length - 1) (by omega)]
      exact nthFrame_getLast A hA
    have hnext : nthFrame (sortFrames frames) A.length = b := by
      conv_lhs => rw [← hsplit, hBc]
      exact nthFrame_append_mid A b bs
    have hne12 : ¬ (A.length - 1 = A.length) := by omega
    have hnotlt1 : ¬ t < (A.getLast hA).frame := by
      rw [hprev_frame]
      exact lt_irrefl t
    have hnotlt2 : ¬ b.frame < t := by
      have := lt_of_not_le hble
      exact not_lt.mpr (le_of_lt this)
    have hratio : (t - (A.getLast hA).frame) / (b.frame - (A.getLast hA).frame)
        = 0 := by
      rw [hprev_frame, sub_self, zero_div]
    rw [interpolate]
    simp only [hseg, List.isEmpty_iff, hs, if_false, if_true, hprev, hnext,
      if_neg hne12, if_neg hnotlt1, if_neg hnotlt2, hratio]
    refine ⟨rfl, fun k => ?_⟩
    rw [getProp_lazyBranch, hlast]
    by_cases hmemk : k ∈ unionKeys (A.getLast hA) b
    · rw [if_pos hmemk, lazyMerge_zero]
      rfl
    · rw [if_neg hmemk]
      have := getProp_eq_none_of_not_mem_union (A.getLast hA) b k hmemk
      rw [Frame.getProp] at this
      exact this.symm

/-! ## The dense table -/

/-- Every dense-table entry carries its own frame index: the exact branch
returns a keyframe whose frame passed the `k.frame === f` test, every other
branch writes `frame: f` explicitly. -/
theorem precalcEntry_frame (keyframes : List Frame) (props : List String)
    (f : ℚ) : (precalcEntry keyframes props f).frame = f := by
  rw [precalcEntry]
  cases hfind : keyframes.find? (fun k => decide (k.frame = f)) with
  | some exact =>
    have := List.find?_some hfind
    simpa using this
  | none =>
    simp only []
    split
    · rfl
    · split
      · rfl
      · split
        · rfl
        · rfl

/-- `find?` over a mapped range hits exactly the requested index when the
predicate holds precisely there. -/
theorem find?_map_range (n f : ℕ) (g : ℕ → Frame) (q : Frame → Bool)
    (hf : f < n) (hq : ∀ i, i < n → (q (g i) = true ↔ i = f)) :
    ((List.range n).map g).find? q = some (g f) := by
  have main : ∀ (l : List ℕ), (∀ i ∈ l, i < n) → f ∈ l →
      (l.map g).find? q = some (g f) := by
    intro l
    induction l with
    | nil => intro _ h; exact absurd h (List.not_mem_nil f)
    | cons a rest ih =>
      intro hbound hmem
      rw [List.map_cons, List.find?_cons]
      by_cases ha : q (g a) = true
      · have : a = f := (hq a (hbound a (List.mem_cons_self _ _))).mp ha
        subst this
        simp [ha]
      · have haf : a ≠ f := by
          intro h
          subst h
          exact ha ((hq a (hbound a (List.mem_cons_self _ _))).mpr rfl)
        have hfrest : f ∈ rest := by
          rcases List.mem_cons.mp hmem with h | h
          · exact absurd h.symm haf
          · exact h
        simp only [Bool.not_eq_true] at ha
        simp only [ha]
        exact ih (fun i hi => hbound i (List.mem_cons_of_mem _ hi)) hfrest
  exact main (List.range n) (fun i hi => List.mem_range.mp hi)
    (List.mem_range.mpr hf)

/-- Per key, the lazy union-merge and the eager copy-then-overwrite loop
agree, provided `prev` is one of the scanned keyframes (so that every key
numeric on both sides is in the collected `propsToInterpolate`). -/
theorem interp_props_key_eq (sorted : List Frame) (prev next : Frame)
    (hprev : prev ∈ sorted) (ratio : ℚ) (k : String) :
    (if k ∈ unionKeys prev next then lazyMerge prev next ratio k else none)
    = match prev.getProp k, next.getProp k with
      | some (Value.num v1), some (Value.num v2) =>
          if k ∈ propsToInterpolate sorted
          then some (Value.num (v1 + (v2 - v1) * ratio))
          else lookupProp prev.props k
      | _, _ => lookupProp prev.props k := by
  rcases hp : prev.getProp k with _ | v1
  · have hnone : lookupProp prev.props k = none := hp
    by_cases hmem : k ∈ unionKeys prev next
    · rw [if_pos hmem]
      simp only [lazyMerge, hp, hnone]
    · rw [if_neg hmem]
      simp only [hp, hnone]
  · have hsome : lookupProp prev.props k = some v1 := hp
    have hmem : k ∈ unionKeys prev next := by
      apply (mem_unionKeys prev next k).mpr
      apply Or.inl
      rw [← lookupProp_ne_none_iff]
      rw [Frame.getProp] at hp
      simp [hp]
    rw [if_pos hmem]
    rcases v1 with q1 | s1
    · rcases hn : next.getProp k with _ | v2
      · simp only [lazyMerge, hp, hn, hsome]
      · rcases v2 with q2 | s2
        · have hP : k ∈ propsToInterpolate sorted :=
            (mem_propsToInterpolate sorted k).mpr ⟨prev, hprev, q1, hp⟩
          simp only [lazyMerge, hp, hn, if_pos hP]
        · simp only [lazyMerge, hp, hn, hsome]
    · rcases hn : next.getProp k with _ | v2
      · simp only [lazyMerge, hp, hn, hsome]
      · rcases v2 with q2 | s2 <;> simp only [lazyMerge, hp, hn, hsome]

/-- The lazy resolution and the dense-table entry computed by
`_precalculateFrames` agree at every frame, for an element whose keyframes
put at most one keyframe at that frame. -/
theorem interpolate_eq_precalcEntry (frames : List Frame) (f : ℚ)
    (hne : frames ≠ [])
    (huniq : ∀ kf₁ ∈ frames, ∀ kf₂ ∈ frames,
        kf₁.frame = f → kf₂.frame = f → kf₁ = kf₂) :
    FrameEquiv (interpolate frames f)
      (precalcEntry (sortFrames frames)
        (propsToInterpolate (sortFrames frames)) f) := by
  have hs : sortFrames frames ≠ [] := by
    rw [ne_eq, sortFrames_eq_nil_iff]
    exact hne
  cases hfind : (sortFrames frames).find? (fun k => decide (k.frame = f)) with
  | some e =>
    have he_mem : e ∈ frames :=
      (mem_sortFrames e frames).mp (List.mem_of_find?_eq_some hfind)
    have he_frame : e.frame = f := by simpa using List.find?_some hfind
    have hlazy := interpolate_of_exact frames f e he_mem he_frame
    have hlast := lastAtOrBefore_spec frames f e he_mem he_frame
    have heq : lastAtOrBefore frames f = e :=
      huniq _ hlast.1 _ he_mem hlast.2 he_frame
    have heager : precalcEntry (sortFrames frames)
        (propsToInterpolate (sortFrames frames)) f = e := by
      rw [precalcEntry, hfind]
    rw [heager]
    constructor
    · rw [hlazy.1, he_frame]
    · intro k
      rw [hlazy.2 k]
      rw [heq]
      rfl
  | none =>
    have hnoex : ∀ x ∈ sortFrames frames, x.frame ≠ f := by
      intro x hx
      have := List.find?_eq_none.mp hfind x hx
      simpa using this
    set p : Frame → Bool := fun fr => decide (fr.frame ≤ f) with hpdef
    set A := (sortFrames frames).takeWhile p with hAdef
    set B := (sortFrames frames).dropWhile p with hBdef
    have hsplit : A ++ B = sortFrames frames :=
      List.takeWhile_append_dropWhile p (sortFrames frames)
    have hAmem : ∀ fr ∈ A, fr.frame ≤ f := by
      intro fr hfr
      have := List.mem_takeWhile_imp hfr
      simpa [hpdef] using this
    cases hAc : A with
    | nil =>
      obtain ⟨b, bs, hbs⟩ := List.exists_cons_of_ne_nil hs
      have hble : ¬ b.frame ≤ f := by
        have hBs : B = sortFrames frames := by
          rw [← hsplit, hAc, List.nil_append]
        have := List.head?_dropWhile_not p (sortFrames frames)
        rw [← hBdef, hBs, hbs] at this
        simpa [hpdef] using this
      have hbnth : nthFrame (sortFrames frames) 0 = b := by
        rw [hbs]; rfl
      have hflt : f < (nthFrame (sortFrames frames) 0).frame := by
        rw [hbnth]
        exact lt_of_not_le hble
      have hseg : findSeg f (sortFrames frames) 0
          (0, (sortFrames frames).length - 1) = (0, 0) := by
        rw [hbs]
        exact findSeg_head_gt f b bs hble 0 0 _
      have hlazy := interpolate_before_first frames f hflt hne
      have heager : precalcEntry (sortFrames frames)
          (propsToInterpolate (sortFrames frames)) f
          = { nthFrame (sortFrames frames) 0 with frame := f } := by
        rw [precalcEntry, hfind]
        simp only [hseg, if_pos hflt]
      rw [hlazy, heager]
      exact ⟨rfl, fun k => rfl⟩
    | cons a as =>
      have hA : A ≠ [] := by rw [hAc]; simp
      rw [← hAc] at *
      cases hBc : B with
      | nil =>
        have hAall : A = sortFrames frames := by
          rw [← hsplit, hBc, List.append_nil]
        have hall : ∀ fr ∈ sortFrames frames, fr.frame ≤ f := by
          rw [← hAall]; exact hAmem
        have hlastlt : (nthFrame (sortFrames frames)
            ((sortFrames frames).length - 1)).frame < f := by
          have hmem : nthFrame (sortFrames frames)
              ((sortFrames frames).length - 1) ∈ sortFrames frames := by
            rw [nthFrame_getLast _ hs]
            exact List.getLast_mem hs
          exact lt_of_le_of_ne (hall _ hmem) (hnoex _ hmem)
        have hseg : findSeg f (sortFrames frames) 0
            (0, (sortFrames frames).length - 1)
            = ((sortFrames frames).length - 1,
               (sortFrames frames).length - 1) := by
          rw [findSeg_of_all_le f _ hall 0 0 _ hs]
          simp
        have hlazy := interpolate_after_last frames f hlastlt hne
        have heager : precalcEntry (sortFrames frames)
            (propsToInterpolate (sortFrames frames)) f
            = { nthFrame (sortFrames frames)
                  ((sortFrames frames).length - 1) with frame := f } := by
          rw [precalcEntry, hfind]
          simp only [hseg, if_neg (not_lt.mpr (le_of_lt hlastlt)),
            if_pos hlastlt]
        rw [hlazy, heager]
        exact ⟨rfl, fun k => rfl⟩
      | cons b bs =>
        have hble : ¬ b.frame ≤ f := by
          have := List.head?_dropWhile_not p (sortFrames frames)
          rw [← hBdef, hBc] at this
          simpa [hpdef] using this
        have hApos : 0 < A.length := List.length_pos.mpr hA
        have hseg : findSeg f (sortFrames frames) 0
            (0, (sortFrames frames).length - 1)
            = (A.length - 1, A.length) := by
          conv_lhs => rw [← hsplit, hBc]
          rw [findSeg_of_split f A hAmem b bs hble 0 0 _ hA]
          simp
        have hprev : nthFrame (sortFrames frames) (A.length - 1)
            = A.getLast hA := by
          conv_lhs => rw [← hsplit]
          rw [nthFrame_append_left A B (A.length - 1) (by omega)]
          exact nthFrame_getLast A hA
        have hnext : nthFrame (sortFrames frames) A.length = b := by
          conv_lhs => rw [← hsplit, hBc]
          exact nthFrame_append_mid A b bs
        have hprev_mem : A.getLast hA ∈ sortFrames frames := by
          rw [← hsplit]
          exact List.mem_append.mpr (Or.inl (List.getLast_mem hA))
        have hprev_le : (A.getLast hA).frame ≤ f :=
          hAmem _ (List.getLast_mem hA)
        have hprev_lt : (A.getLast hA).frame < f :=
          lt_of_le_of_ne hprev_le (hnoex _ hprev_mem)
        have hne12 : ¬ (A.length - 1 = A.length) := by omega
        have hnotlt1 : ¬ f < (A.getLast hA).frame := not_lt.mpr hprev_le
        have hnotlt2 : ¬ b.frame < f := not_lt.mpr (le_of_lt (lt_of_not_le hble))
        have hlazy : interpolate frames f
            = { frame := f,
                props := (unionKeys (A.getLast hA) b).filterMap fun k =>
                  (lazyMerge (A.getLast hA) b
                    ((f - (A.getLast hA).frame) / (b.frame - (A.getLast hA).frame))
                    k).map fun v => (k, v) } := by
          rw [interpolate]
          simp only [hseg, List.isEmpty_iff, hs, if_false, hprev, hnext,
            if_neg hne12, if_neg hnotlt1, if_neg hnotlt2]
        have heager : precalcEntry (sortFrames frames)
            (propsToInterpolate (sortFrames frames)) f
            = { frame := f,
                props := (propsToInterpolate (sortFrames frames)).foldl
                  (fun acc k =>
                    match (A.getLast hA).getProp k, b.getProp k with
                    | some (Value.num v1), some (Value.num v2) =>
                        setProp acc k (Value.num (v1 + (v2 - v1) *
                          ((f - (A.getLast hA).frame) /
                            (b.frame - (A.getLast hA).frame))))
                    | _, _ => acc)
                  ({ A.getLast hA with frame := f }).props } := by
          rw [precalcEntry, hfind]
          simp only [hseg, hprev, hnext, if_neg hne12, if_neg hnotlt1,
            if_neg hnotlt2]
        rw [hlazy, heager]
        refine ⟨rfl, fun k => ?_⟩
        rw [getProp_lazyBranch]
        rw [Frame.getProp]
        rw [lookupProp_precalcFold (A.getLast hA) b _ _ _ k]
        exact interp_props_key_eq (sortFrames frames) (A.getLast hA) b
          hprev_mem _ k

/-! ## Structure of the dense table -/

theorem precalcElement_of_ne_nil (duration : ℕ) (frames : List Frame)
    (hne : frames ≠ []) :
    precalcElement duration frames
      = (List.range (duration + 1)).map fun f : ℕ =>
          precalcEntry (sortFrames frames)
            (propsToInterpolate (sortFrames frames)) (f : ℚ) := by
  have hs : sortFrames frames ≠ [] := by
    rw [ne_eq, sortFrames_eq_nil_iff]
    exact hne
  rw [precalcElement]
  simp only [List.isEmpty_iff, hs, if_false]

theorem precalcElement_nil (duration : ℕ) :
    precalcElement duration [] = [] := rfl

theorem precalcElement_length (duration : ℕ) (frames : List Frame)
    (hne : frames ≠ []) :
    (precalcElement duration frames).length = duration + 1 := by
  rw [precalcElement_of_ne_nil duration frames hne]
  simp

/-- The dense table's entry at index `i` is its entry for frame `i`. -/
theorem precalcElement_nth (duration : ℕ) (frames : List Frame)
    (hne : frames ≠ []) (i : ℕ) (hi : i ≤ duration) :
    nthFrame (precalcElement duration frames) i
      = precalcEntry (sortFrames frames)
          (propsToInterpolate (sortFrames frames)) (i : ℚ) := by
  rw [precalcElement_of_ne_nil duration frames hne]
  rw [nthFrame, List.getD_eq_getElem?_getD, List.getElem?_map,
    List.getElem?_range (by omega : i < duration + 1)]
  rfl

/-- The exact-frame lookup in the dense table finds the entry for the
requested integer frame. -/
theorem denseLookup_precalcElement (duration : ℕ) (frames : List Frame)
    (hne : frames ≠ []) (f : ℕ) (hf : f ≤ duration) :
    denseLookup (precalcElement duration frames) (f : ℚ)
      = some (precalcEntry (sortFrames frames)
          (propsToInterpolate (sortFrames frames)) (f : ℚ)) := by
  rw [precalcElement_of_ne_nil duration frames hne, denseLookup]
  apply find?_map_range (duration + 1) f _ _ (by omega)
  intro i _
  rw [precalcEntry_frame]
  constructor
  · intro h
    exact_mod_cast of_decide_eq_true h
  · intro h
    subst h
    simp

/-! ## Idempotence of the eager precomputation -/

theorem precalcElement_idempotent (d : ℕ) (frames : List Frame) :
    precalcElement d (precalcElement d frames) = precalcElement d frames := by
  by_cases hne : frames = []
  · subst hne
    rfl
  · set D := precalcElement d frames with hD
    have hDeq : D = (List.range (d + 1)).map fun f : ℕ =>
        precalcEntry (sortFrames frames)
          (propsToInterpolate (sortFrames frames)) (f : ℚ) :=
      precalcElement_of_ne_nil d frames hne
    have hDne : D ≠ [] := by
      rw [hDeq]
      simp
    have hDpw : D.Pairwise frameLE := by
      rw [hDeq]
      refine List.Pairwise.map _ (fun a b hab => ?_)
        (List.pairwise_lt_range (d + 1))
      rw [frameLE, precalcEntry_frame, precalcEntry_frame]
      exact_mod_cast le_of_lt hab
    have hsortD : sortFrames D = D := List.Sorted.insertionSort_eq hDpw
    rw [precalcElement]
    simp only [hsortD, List.isEmpty_iff, hDne, if_false]
    conv_rhs => rw [hDeq]
    apply List.map_congr_left
    intro i hi
    have hibound : i ≤ d := by
      have := List.mem_range.mp hi
      omega
    have hifind := denseLookup_precalcElement d frames hne i hibound
    rw [denseLookup] at hifind
    rw [precalcEntry, hifind]

theorem precalcE_idempotent (d : ℕ) (e : Element) :
    precalcE d (precalcE d e) = precalcE d e := by
  by_cases ht : e.type = ElementType.audio
  · have h1 : precalcE d e = e := by rw [precalcE, if_pos ht]
    rw [h1, h1]
  · have h1 : precalcE d e = { e with frames := precalcElement d e.frames } := by
      rw [precalcE, if_neg ht]
    rw [h1, precalcE]
    simp [ht, precalcElement_idempotent]

theorem precalculateFrames_eq_map (d : ℕ) (elements : List Element) :
    precalculateFrames d elements = elements.map (precalcE d) := rfl

/-! ## Named keyframes for boundary statements -/

/-- The first (smallest-frame) keyframe: head of the sorted list. -/
def firstKeyframe (frames : List Frame) : Frame :=
  (sortFrames frames).headD ⟨0, []⟩

/-- The last (largest-frame) keyframe: last element of the sorted list. -/
def lastKeyframe (frames : List Frame) : Frame :=
  (sortFrames frames).getLastD ⟨0, []⟩

theorem firstKeyframe_eq_nth (frames : List Frame) :
    firstKeyframe frames = nthFrame (sortFrames frames) 0 := by
  cases h : sortFrames frames <;> simp [firstKeyframe, nthFrame, h]

theorem lastKeyframe_eq_nth (frames : List Frame)
    (hs : sortFrames frames ≠ []) :
    lastKeyframe frames
      = nthFrame (sortFrames frames) ((sortFrames frames).length - 1) := by
  rw [lastKeyframe, getLastD_eq_getLast (sortFrames frames) hs,
    nthFrame_getLast (sortFrames frames) hs]

/-! ## The claims -/

/-- **C2** (confirmed).  Exact match: for an element with a (unique)
keyframe whose frame field equals `t`, the lazy resolution at target frame
`t` returns exactly that keyframe's property values, with the result's
frame field equal to `t`.  (Uniqueness makes "that keyframe" well defined;
equal-frame duplicates are the subject of C3.) -/
theorem exact_match (frames : List Frame) (kf : Frame) (t : ℚ)
    (hmem : kf ∈ frames) (hkf : kf.frame = t)
    (huniq : ∀ kf' ∈ frames, kf'.frame = t → kf' = kf) :
    FrameEquiv (interpolate frames t) ⟨t, kf.props⟩ := by
  have h := interpolate_of_exact frames t kf hmem hkf
  have hspec := lastAtOrBefore_spec frames t kf hmem hkf
  have heq : lastAtOrBefore frames t = kf := huniq _ hspec.1 hspec.2
  rw [heq] at h
  exact h

/-- Witness for C2 at a concrete element and frame. -/
theorem exact_match_witness :
    FrameEquiv
      (interpolate [⟨0, [("x", Value.num 0)]⟩, ⟨10, [("x", Value.num 100)]⟩]
        10)
      ⟨10, [("x", Value.num 100)]⟩ :=
  exact_match _ ⟨10, [("x", Value.num 100)]⟩ 10 (by decide) (by decide)
    (by decide)

/-- **C4** (confirmed).  Boundary clamp: before the first keyframe the
result is the first (smallest-frame) keyframe's property values with the
frame field rewritten to the target; symmetrically past the last
keyframe. -/
theorem boundary_clamp (frames : List Frame) (t : ℚ) (hne : frames ≠ []) :
    (t < (firstKeyframe frames).frame →
        FrameEquiv (interpolate frames t) ⟨t, (firstKeyframe frames).props⟩)
  ∧ ((lastKeyframe frames).frame < t →
        FrameEquiv (interpolate frames t) ⟨t, (lastKeyframe frames).props⟩) := by
  have hs : sortFrames frames ≠ [] := by
    rw [ne_eq, sortFrames_eq_nil_iff]
    exact hne
  constructor
  · intro hlt
    rw [firstKeyframe_eq_nth] at hlt ⊢
    rw [interpolate_before_first frames t hlt hne]
    exact ⟨rfl, fun k => rfl⟩
  · intro hgt
    rw [lastKeyframe_eq_nth frames hs] at hgt ⊢
    rw [interpolate_after_last frames t hgt hne]
    exact ⟨rfl, fun k => rfl⟩

/-- Witness for C4 at a concrete element, one frame on each side. -/
theorem boundary_clamp_witness :
    FrameEquiv
      (interpolate [⟨2, [("x", Value.num 7)]⟩, ⟨4, [("x", Value.num 9)]⟩] 1)
      ⟨1, (firstKeyframe
        [⟨2, [("x", Value.num 7)]⟩, ⟨4, [("x", Value.num 9)]⟩]).props⟩
  ∧ FrameEquiv
      (interpolate [⟨2, [("x", Value.num 7)]⟩, ⟨4, [("x", Value.num 9)]⟩] 6)
      ⟨6, (lastKeyframe
        [⟨2, [("x", Value.num 7)]⟩, ⟨4, [("x", Value.num 9)]⟩]).props⟩ :=
  ⟨(boundary_clamp _ 1 (by decide)).1 (by decide),
   (boundary_clamp _ 6 (by decide)).2 (by decide)⟩

/-- **C5** (confirmed).  Linear interpolation: with keyframes
`{frame: 0, x: 0}` and `{frame: 10, x: 100}`, resolving at frame 5 yields
`x = 50` exactly and at frame 3 yields `x = 30` exactly. -/
theorem linear_interpolation_values :
    (interpolate [⟨0, [("x", Value.num 0)]⟩, ⟨10, [("x", Value.num 100)]⟩]
        5).getProp "x" = some (Value.num 50)
  ∧ (interpolate [⟨0, [("x", Value.num 0)]⟩, ⟨10, [("x", Value.num 100)]⟩]
        3).getProp "x" = some (Value.num 30) := by
  constructor <;>
    norm_num [interpolate, sortFrames, List.insertionSort, List.orderedInsert,
      frameLE, findSeg, nthFrame, unionKeys, lazyMerge, Frame.getProp,
      lookupProp]

/-- **C1** (counterexample).  As stated, mode equivalence fails at an
element with two keyframes sharing frame 5 but different `x` values: at
frame 5 the lazy resolution returns the last duplicate's value while the
eager dense lookup returns the first duplicate's value. -/
theorem mode_equivalence_counterexample :
    ¬ ((interpolate
          [⟨5, [("x", Value.num 1)]⟩, ⟨5, [("x", Value.num 2)]⟩]
          5).getProp "x"
        = (denseLookup
            (precalcElement 5
              [⟨5, [("x", Value.num 1)]⟩, ⟨5, [("x", Value.num 2)]⟩])
            5).bind fun fr => fr.getProp "x") := by
  decide

/-- **C1** (amended).  Mode equivalence holds for every element whose
keyframes carry pairwise-distinct frame values: for every integer frame in
`[0, duration]` and every property key, the lazy resolution and the
eager-precomputed exact-frame lookup return the same value (exactly, in
`ℚ`). -/
theorem mode_equivalence (frames : List Frame) (d f : ℕ) (hf : f ≤ d)
    (hdist : (frames.map Frame.frame).Nodup) (k : String) :
    (interpolate frames (f : ℚ)).getProp k
      = (denseLookup (precalcElement d frames) (f : ℚ)).bind
          fun fr => fr.getProp k := by
  by_cases hne : frames = []
  · subst hne
    rfl
  · have huniq : ∀ kf₁ ∈ frames, ∀ kf₂ ∈ frames,
        kf₁.frame = (f : ℚ) → kf₂.frame = (f : ℚ) → kf₁ = kf₂ := by
      intro kf₁ h1 kf₂ h2 e1 e2
      exact List.inj_on_of_nodup_map hdist h1 h2 (by rw [e1, e2])
    have hmain := interpolate_eq_precalcEntry frames (f : ℚ) hne huniq
    rw [denseLookup_precalcElement d frames hne f hf]
    exact hmain.2 k

/-- Witness for the amended C1 at a concrete element and frame. -/
theorem mode_equivalence_witness :
    (interpolate [⟨0, [("x", Value.num 0)]⟩, ⟨10, [("x", Value.num 100)]⟩]
        ((5 : ℕ) : ℚ)).getProp "x"
      = (denseLookup
          (precalcElement 10
            [⟨0, [("x", Value.num 0)]⟩, ⟨10, [("x", Value.num 100)]⟩])
          ((5 : ℕ) : ℚ)).bind fun fr => fr.getProp "x" :=
  mode_equivalence _ 10 5 (by decide) (by decide) "x"

/-- **C3** (counterexample).  As stated, first-occurrence authority fails
for the lazy mode: with duplicates `x = 1` then `x = 2` at frame 5, the
lazy resolution at frame 5 does not return the first occurrence's value. -/
theorem first_occurrence_counterexample :
    ¬ ((interpolate
          [⟨5, [("x", Value.num 1)]⟩, ⟨5, [("x", Value.num 2)]⟩]
          5).getProp "x" = some (Value.num 1)) := by
  decide

/-- **C3** (amended).  With duplicate keyframes at frame `K`: the eager
dense table's exact-match entry is the *first* occurrence in the ascending
(stable) scan — literally `find?` over the sorted list — while the lazy
resolution returns the values of the *last* keyframe at or before `K` in
the sorted order (which sits exactly at frame `K`). -/
theorem exact_match_occurrence (frames : List Frame) (kf : Frame) (K d : ℕ)
    (hmem : kf ∈ frames) (hkf : kf.frame = (K : ℚ)) (hKd : K ≤ d) :
    denseLookup (precalcElement d frames) (K : ℚ)
        = (sortFrames frames).find? (fun fr => decide (fr.frame = (K : ℚ)))
  ∧ (lastAtOrBefore frames (K : ℚ)).frame = (K : ℚ)
  ∧ FrameEquiv (interpolate frames (K : ℚ))
      ⟨(K : ℚ), (lastAtOrBefore frames (K : ℚ)).props⟩ := by
  have hne : frames ≠ [] := List.ne_nil_of_mem hmem
  refine ⟨?_, (lastAtOrBefore_spec frames _ kf hmem hkf).2,
    interpolate_of_exact frames _ kf hmem hkf⟩
  rw [denseLookup_precalcElement d frames hne K hKd]
  have hex : ∃ e, (sortFrames frames).find?
      (fun fr => decide (fr.frame = (K : ℚ))) = some e := by
    rw [← Option.isSome_iff_exists]
    apply List.find?_isSome.mpr
    exact ⟨kf, (mem_sortFrames kf frames).mpr hmem, by simp [hkf]⟩
  obtain ⟨e, he⟩ := hex
  rw [he, precalcEntry, he]

/-- Witness for the amended C3 at a concrete duplicate-frame element. -/
theorem exact_match_occurrence_witness :
    denseLookup
        (precalcElement 5
          [⟨5, [("x", Value.num 1)]⟩, ⟨5, [("x", Value.num 2)]⟩])
        ((5 : ℕ) : ℚ)
      = (sortFrames [⟨5, [("x", Value.num 1)]⟩, ⟨5, [("x", Value.num 2)]⟩]).find?
          (fun fr => decide (fr.frame = ((5 : ℕ) : ℚ))) :=
  (exact_match_occurrence _ ⟨5, [("x", Value.num 1)]⟩ 5 5 (by decide)
    (by decide) (by decide)).1

/-- **C6** (code evaluated at the failing input).  With
`duration = 100, loop = true, fps = 60`, advancing from position 95 by a
10-frame delta does wrap to position 5 — but with `duration = 0` the
unguarded `currentFrame % duration` divides by zero and the position
becomes `NaN` (`none`), contradicting the claim's guard. -/
theorem loop_wrap_and_zero_duration :
    (update ⟨100, true, 60⟩ ⟨some 95, true⟩ 10).currentFrame = some 5
  ∧ (update ⟨0, true, 60⟩ ⟨some 0, true⟩ 1).currentFrame = none := by
  constructor <;> norm_num [update, jsMod, ratTrunc]

/-- **C7** (confirmed).  Clamp-and-stop: with `loop = false`, a tick that
advances past the duration sets the position exactly to the duration and
pauses playback; any further tick leaves the position at most the
duration. -/
theorem clamp_and_stop (m : MovieParams) (s : ClockState) (deltaTime cf : ℚ)
    (hloop : m.loop = false) (hcf : s.currentFrame = some cf)
    (hpast : m.duration < cf + m.fps / 60 * deltaTime) :
    (update m s deltaTime).currentFrame = some m.duration
  ∧ (update m s deltaTime).isPlaying = false
  ∧ ∀ dt' : ℚ, ∃ q : ℚ,
      (update m (update m s deltaTime) dt').currentFrame = some q
        ∧ q ≤ m.duration := by
  have h1 : update m s deltaTime
      = { currentFrame := some m.duration, isPlaying := false } := by
    rw [update, hcf]
    simp only [if_pos hpast, hloop, Bool.false_eq_true, if_false]
  refine ⟨by rw [h1], by rw [h1], fun dt' => ?_⟩
  rw [h1]
  simp only [update]
  by_cases h2 : m.duration < m.duration + m.fps / 60 * dt'
  · rw [if_pos h2]
    simp only [hloop, Bool.false_eq_true, if_false]
    exact ⟨m.duration, rfl, le_refl _⟩
  · rw [if_neg h2]
    exact ⟨m.duration + m.fps / 60 * dt', rfl, not_lt.mp h2⟩

/-- Witness for C7 at concrete movie parameters and clock state. -/
theorem clamp_and_stop_witness :
    (update ⟨100, false, 60⟩ ⟨some 95, true⟩ 10).currentFrame = some 100
  ∧ (update ⟨100, false, 60⟩ ⟨some 95, true⟩ 10).isPlaying = false :=
  ⟨(clamp_and_stop ⟨100, false, 60⟩ ⟨some 95, true⟩ 10 95 rfl rfl
      (by norm_num)).1,
   (clamp_and_stop ⟨100, false, 60⟩ ⟨some 95, true⟩ 10 95 rfl rfl
      (by norm_num)).2.1⟩

/-- **C8** (confirmed).  Audio window gating for `startFrame = 30`,
`endFrame = 60` on a tick in the playing state: at frames 20 and 70 the
media ends up paused (offset reset to 0 if it had been playing); at frame
45 it ends up playing, and if it was started on this tick its offset is
`(45 - 30) / fps` seconds. -/
theorem audio_window_gating (fps : ℚ) (a : AudioState) :
    (audioTick fps 30 60 true 20 a).paused = true
  ∧ (a.paused = false → (audioTick fps 30 60 true 20 a).currentTime = 0)
  ∧ (audioTick fps 30 60 true 70 a).paused = true
  ∧ (a.paused = false → (audioTick fps 30 60 true 70 a).currentTime = 0)
  ∧ (audioTick fps 30 60 true 45 a).paused = false
  ∧ (a.paused = true →
      (audioTick fps 30 60 true 45 a).currentTime = (45 - 30) / fps) := by
  obtain ⟨p, ct⟩ := a
  have h20 : ¬ ((30 : ℚ) ≤ 20 ∧ (20 : ℚ) < 60) := by norm_num
  have h70 : ¬ ((30 : ℚ) ≤ 70 ∧ (70 : ℚ) < 60) := by norm_num
  have h45 : ((30 : ℚ) ≤ 45 ∧ (45 : ℚ) < 60) := by norm_num
  cases p
  · refine ⟨?_, ?_, ?_, ?_, ?_, ?_⟩
    · rw [audioTick, if_neg h20]
      simp
    · intro _
      rw [audioTick, if_neg h20]
      simp
    · rw [audioTick, if_neg h70]
      simp
    · intro _
      rw [audioTick, if_neg h70]
      simp
    · rw [audioTick, if_pos h45]
      simp only [Bool.and_false, Bool.false_eq_true, if_false,
        Bool.not_false, Bool.and_true]
      split_ifs <;> rfl
    · intro hcontra
      exact absurd hcontra (by simp)
  · refine ⟨?_, ?_, ?_, ?_, ?_, ?_⟩
    · rw [audioTick, if_neg h20]
      simp
    · intro hcontra
      exact absurd hcontra (by simp)
    · rw [audioTick, if_neg h70]
      simp
    · intro hcontra
      exact absurd hcontra (by simp)
    · rw [audioTick, if_pos h45]
      simp
    · intro _
      rw [audioTick, if_pos h45]
      simp

/-- Witness for C8: a concrete tick that starts the media at frame 45. -/
theorem audio_window_gating_witness :
    (audioTick 30 30 60 true 45 ⟨true, 0⟩).currentTime = (45 - 30) / 30 :=
  (audio_window_gating 30 ⟨true, 0⟩).2.2.2.2.2 rfl

/-- **C9** (confirmed).  The eager precomputation is idempotent: running
`_precalculateFrames` a second time over elements whose frame lists were
already replaced by dense tables reproduces exactly the same tables (the
exact-frame branch fires for every frame of a dense table). -/
theorem precompute_idempotent (d : ℕ) (elements : List Element) :
    precalculateFrames d (precalculateFrames d elements)
      = precalculateFrames d elements := by
  rw [precalculateFrames_eq_map, precalculateFrames_eq_map, List.map_map]
  apply List.map_congr_left
  intro e _
  exact precalcE_idempotent d e

/-- **C10** (confirmed).  After eager precomputation, a non-audio element
with at least one keyframe holds exactly `duration + 1` entries, the entry
at index `i` has frame field `i`, and the exact-frame lookup succeeds for
every integer frame in `[0, duration]`; audio elements and elements with
an empty keyframe list are left unchanged. -/
theorem precompute_dense (d : ℕ) (e : Element) :
    (e.type ≠ ElementType.audio → e.frames ≠ [] →
        (precalcE d e).frames.length = d + 1
      ∧ ∀ i : ℕ, i ≤ d →
          (nthFrame (precalcE d e).frames i).frame = (i : ℚ)
        ∧ (denseLookup (precalcE d e).frames (i : ℚ)).isSome = true)
  ∧ (e.type = ElementType.audio ∨ e.frames = [] → precalcE d e = e) := by
  constructor
  · intro ht hne
    have hframes : (precalcE d e).frames = precalcElement d e.frames := by
      rw [precalcE, if_neg ht]
    rw [hframes]
    refine ⟨precalcElement_length d e.frames hne, fun i hi => ⟨?_, ?_⟩⟩
    · rw [precalcElement_nth d e.frames hne i hi, precalcEntry_frame]
    · rw [denseLookup_precalcElement d e.frames hne i hi]
      rfl
  · intro h
    rcases h with ht | hfr
    · rw [precalcE, if_pos ht]
    · by_cases ht : e.type = ElementType.audio
      · rw [precalcE, if_pos ht]
      · obtain ⟨eid, ety, efr⟩ := e
        simp only at hfr
        subst hfr
        rw [precalcE, if_neg ht, precalcElement_nil]

/-- Witness for C10 at a concrete image element with one keyframe. -/
theorem precompute_dense_witness :
    (precalcE 2 ⟨"a", ElementType.image, [⟨0, [("x", Value.num 0)]⟩]⟩).frames.length
      = 2 + 1 :=
  ((precompute_dense 2 ⟨"a", ElementType.image, [⟨0, [("x", Value.num 0)]⟩]⟩).1
    (by decide) (by decide)).1
